import Mathlib

/-!
Verification development for the oof sparse Merkle proof library.

The library keeps a sparse view of a perfect binary hash tree as a
`BTreeMap<u128, [u8; 32]>` keyed by generalized indices (root = 1,
children of `i` are `2*i` and `2*i+1`).  We embed the map as an
association list sorted strictly by key (the canonical form of a
`BTreeMap`), node values as byte lists, and the SHA-256 digest as an
explicit function parameter (the digest primitive is an external
collaborator of the library, used only through `hash`).
-/

/-- Node value, embedding the `[u8; 32]` value type `V` of the source. -/
abbrev Val := List Nat

/-- Canonical form of `BTreeMap<K, V>`: association list strictly sorted by key. -/
abbrev MapL := List (Nat × Val)

/-- `BTreeMap::get`: first binding of the key, if any. -/
def mapGet (k : Nat) : MapL → Option Val
  | [] => none
  | kv :: t => if k = kv.1 then some kv.2 else mapGet k t

/-- `BTreeMap::insert`: replace the binding of `k`, keeping the list sorted. -/
def mapInsert (k : Nat) (v : Val) : MapL → MapL
  | [] => [(k, v)]
  | kv :: t =>
    if k < kv.1 then (k, v) :: kv :: t
    else if k = kv.1 then (k, v) :: t
    else kv :: mapInsert k v t

/-- `BTreeMap::remove`: drop the binding of `k`, if any. -/
def mapRemove (k : Nat) : MapL → MapL
  | [] => []
  | kv :: t => if k = kv.1 then t else kv :: mapRemove k t

/-- The `BTreeMap` representation invariant: keys strictly ascending. -/
abbrev SortedMap (m : MapL) : Prop := List.Pairwise (fun a b => a.1 < b.1) m

/-- The `Oof` structure of `lib.rs`: the sparse tree map and its height. -/
structure Oof where
  map : MapL
  height : Nat
deriving DecidableEq

/-- `hash` from `hash.rs`: concatenate the two 32-byte values, apply the
digest, keep the first 32 bytes.  `digest` stands for `Sha256::digest`,
an external primitive of the `sha2` crate. -/
def Oof.hash (digest : List Nat → List Nat) (left right : Val) : Val :=
  (digest (left ++ right)).take 32

/-- `zero_hash` from `hash.rs`: value of a default-filled subtree of the
given depth. -/
def Oof.zero_hash (digest : List Nat → List Nat) (default : Val) : Nat → Val
  | 0 => default
  | depth + 1 =>
    Oof.hash digest (Oof.zero_hash digest default depth) (Oof.zero_hash digest default depth)

/-- `bonsai::expand`, an external collaborator; modelled from its contract
in the spec: `expand(i) = (left, right, parent)` with `parent = i >> 1`,
`left = 2*parent`, `right = 2*parent + 1`. -/
def Oof.expand (i : Nat) : Nat × Nat × Nat := (2 * (i / 2), 2 * (i / 2) + 1, i / 2)

/-- `bonsai::children`, an external collaborator; modelled from its contract
in the spec: `children(i) = (2*i, 2*i+1)`. -/
def Oof.children (i : Nat) : Nat × Nat := (2 * i, 2 * i + 1)

/-- Structural floor logarithm base 2 (`Nat.log2` is well-founded
recursion, which the kernel cannot evaluate; this fuelled version agrees
with it and computes). -/
def log2Aux : Nat → Nat → Nat
  | 0, _ => 0
  | fuel + 1, n => if n ≤ 1 then 0 else log2Aux fuel (n / 2) + 1

/-- Floor logarithm base 2, the depth of a generalized index. -/
def floorLog2 (n : Nat) : Nat := log2Aux n n

/-- `bonsai::relative_depth`, an external collaborator; modelled from its
contract in the spec: depth of `i` within a tree of `leafCount` leaves. -/
def Oof.relative_depth (i leafCount : Nat) : Nat := floorLog2 leafCount - floorLog2 i

/-- `Oof::new`: insert the parallel key/value lists into an empty map. -/
def Oof.new (ks : List Nat) (vs : List Val) (height : Nat) : Oof :=
  ⟨(ks.zip vs).foldl (fun m kv => mapInsert kv.1 kv.2 m) [], height⟩

/-- `Oof::get`. -/
def Oof.get (t : Oof) (k : Nat) : Option Val := mapGet k t.map

/-- `Oof::set`: pure map insertion, returning the previous value (as
`BTreeMap::insert` does) together with the updated structure. -/
def Oof.set (t : Oof) (k : Nat) (v : Val) : Option Val × Oof :=
  (mapGet k t.map, ⟨mapInsert k v t.map, t.height⟩)

/-- `Oof::keys`: the map keys sorted in descending order. -/
def Oof.keys (t : Oof) : List Nat := (t.map.map Prod.fst).reverse

/-- Result of one iteration of the `refresh` loop body (the three-way
match on `(get left, get right, get parent)` in the source). -/
inductive StepRes where
  | derived (m : MapL) (parent : Nat)
  | skip
  | fail (k : Nat)
deriving DecidableEq

/-- Result of running one of the node-processing loops to completion:
normal return, an `EntryNotFound` error, an out-of-bounds `nodes[position]`
index panic, or exhaustion of the step budget. -/
inductive LoopResult where
  | ok (m : MapL)
  | err (k : Nat)
  | oob
  | timeout
deriving DecidableEq

/-- Result of `Oof::root`: the root value together with the mutated
structure, or one of the failure modes of the loop. -/
inductive RootResult where
  | ok (v : Val) (t : Oof)
  | err (k : Nat)
  | oob
  | timeout
deriving DecidableEq

/-- One iteration of the `refresh` loop body, exactly the source match:
derive the parent from both children when it is absent, do nothing when
all three are present, otherwise report the first missing child (left
checked before right). -/
def refreshStep (digest : List Nat → List Nat) (m : MapL) (i : Nat) : StepRes :=
  let e := Oof.expand i
  match mapGet e.1 m, mapGet e.2.1 m, mapGet e.2.2 m with
  | some lv, some rv, none => .derived (mapInsert e.2.2 (Oof.hash digest lv rv) m) e.2.2
  | some _, some _, some _ => .skip
  | none, _, _ => .fail e.1
  | _, none, _ => .fail e.2.1

/-- The `while nodes[position] > 1` loop of `Oof::refresh`.  `fuel` bounds
the number of iterations; it is chosen large enough by `Oof.refresh`.
Reading `nodes[position]` past the end of the vector is the source's
index panic, reported as `.oob`. -/
def refreshLoop (digest : List Nat → List Nat) :
    Nat → MapL → List Nat → Nat → LoopResult
  | 0, _, _, _ => .timeout
  | fuel + 1, m, nodes, pos =>
    match nodes.get? pos with
    | none => .oob
    | some i =>
      if 1 < i then
        match refreshStep digest m i with
        | .derived m' p => refreshLoop digest fuel m' (nodes ++ [p]) (pos + 1)
        | .skip => refreshLoop digest fuel m nodes (pos + 1)
        | .fail k => .err k
      else .ok m

/-- Step budget for the node-processing loops: the loop runs at most
`length + maxKey` iterations, since every iteration past the initial
keys consumes a pushed parent and each push inserts a fresh key below
the maximum. -/
def initFuel (m : MapL) : Nat := m.length + (m.map Prod.fst).foldr max 0 + 1

/-- `Oof::refresh`. -/
def Oof.refresh (digest : List Nat → List Nat) (t : Oof) : LoopResult :=
  refreshLoop digest (initFuel t.map) t.map (Oof.keys t) 0

/-- `Oof::root`: refresh, then look up index 1, absence giving
`EntryNotFound(1)`. -/
def Oof.root (digest : List Nat → List Nat) (t : Oof) : RootResult :=
  match Oof.refresh digest t with
  | .ok m =>
    match mapGet 1 m with
    | some v => .ok v ⟨m, t.height⟩
    | none => .err 1
  | .err k => .err k
  | .oob => .oob
  | .timeout => .timeout

/-- The value component of `Oof::root`, when it returns one. -/
def Oof.rootValue (digest : List Nat → List Nat) (t : Oof) : Option Val :=
  match Oof.root digest t with
  | .ok v _ => some v
  | _ => none

/-- Little-endian byte encoding of `n` on `w` bytes. -/
def bytesLE : Nat → Nat → List Nat
  | 0, _ => []
  | w + 1, n => n % 256 :: bytesLE w (n / 256)

/-- Little-endian byte decoding. -/
def readLE : List Nat → Nat
  | [] => 0
  | b :: bs => b + 256 * readLE bs

/-- Split a byte stream into `n` consecutive chunks of width `w`, as the
raw-parts casts of `from_blob` read consecutive 16-byte keys and 32-byte
values. -/
def parseChunks (w : Nat) : Nat → List Nat → List (List Nat)
  | 0, _ => []
  | n + 1, bs => bs.take w :: parseChunks w n (bs.drop w)

/-- `Oof::from_blob`: read a little-endian `u32` count at offset 0,
`count` 16-byte little-endian keys from offset 4, `count` 32-byte values
from offset `4 + 16*count`, and build the map with `Oof::new`. -/
def Oof.from_blob (blob : List Nat) (height : Nat) : Oof :=
  let count := readLE (blob.take 4)
  let ks := (parseChunks 16 count (blob.drop 4)).map readLE
  let vs := parseChunks 32 count (blob.drop (4 + 16 * count))
  Oof.new ks vs height

/-- Modelled from the spec: `to_bytes`, the owning-mode encoder, is not
among the provided source files; per the spec it emits the `u32` count,
then all keys in ascending order as 16-byte little-endian integers, then
the 32-byte values in the same order. -/
def Oof.to_bytes (t : Oof) : List Nat :=
  bytesLE 4 t.map.length
    ++ (t.map.map (fun kv => bytesLE 16 kv.1)).flatten
    ++ (t.map.map Prod.snd).flatten

/-- The `while nodes[position] > 1` loop of `Oof::fill_with_default`:
when the parent of the popped node is absent, read the two siblings,
inserting `zero_hash` defaults for missing ones (`Entry::or_insert`),
then derive and push the parent. -/
def fillLoop (digest : List Nat → List Nat) (default : Val) (hgt : Nat) :
    Nat → MapL → List Nat → Nat → LoopResult
  | 0, _, _, _ => .timeout
  | fuel + 1, m, nodes, pos =>
    match nodes.get? pos with
    | none => .oob
    | some i =>
      if 1 < i then
        let e := Oof.expand i
        if (mapGet e.2.2 m).isSome then
          fillLoop digest default hgt fuel m nodes (pos + 1)
        else
          let lv := (mapGet e.1 m).getD
            (Oof.zero_hash digest default (Oof.relative_depth e.1 (2 ^ hgt)))
          let m1 := if (mapGet e.1 m).isSome then m else mapInsert e.1 lv m
          let rv := (mapGet e.2.1 m1).getD
            (Oof.zero_hash digest default (Oof.relative_depth e.2.1 (2 ^ hgt)))
          let m2 := if (mapGet e.2.1 m1).isSome then m1 else mapInsert e.2.1 rv m1
          fillLoop digest default hgt fuel
            (mapInsert e.2.2 (Oof.hash digest lv rv) m2) (nodes ++ [e.2.2]) (pos + 1)
      else .ok m

/-- `Oof::fill_with_default`. -/
def Oof.fill_with_default (digest : List Nat → List Nat) (default : Val) (t : Oof) :
    LoopResult :=
  fillLoop digest default t.height (initFuel t.map) t.map (Oof.keys t) 0

/-- The `for key in self.keys()` loop of `Oof::into_branch`: visiting the
initial keys in descending order, remove a key when either of its
children is currently present. -/
def branchFold (ks : List Nat) (m : MapL) : MapL :=
  ks.foldl (fun acc k =>
    if (mapGet (Oof.children k).1 acc).isSome || (mapGet (Oof.children k).2 acc).isSome then
      mapRemove k acc
    else acc) m

/-- `Oof::into_branch`. -/
def Oof.into_branch (t : Oof) : Oof := ⟨branchFold (Oof.keys t) t.map, t.height⟩

example :
    Oof.rootValue (fun l => l) ⟨[(2, [2]), (6, [6]), (7, [7])], 1⟩ = some [2, 6, 7] := by
  decide

example : Oof.root (fun l => l) ⟨[(1, [1]), (3, [3])], 1⟩ = .err 2 := by decide

example : Oof.root (fun l => l) ⟨[], 5⟩ = .oob := by decide

example :
    (Oof.into_branch ⟨[(1, [1]), (2, [2])], 1⟩).map = [(2, [2])] := by decide

example :
    (Oof.fill_with_default (fun l => l) [0] ⟨[(3, [3])], 1⟩) =
      .ok [(1, ([0] ++ [3]).take 32), (2, [0]), (3, [3])] := by decide

/-! ### Association-list lemmas -/

theorem mapGet_eq_none {k : Nat} {m : MapL} (h : k ∉ m.map Prod.fst) :
    mapGet k m = none := by
  induction m with
  | nil => rfl
  | cons kv t ih =>
    simp only [List.map_cons, List.mem_cons] at h
    push_neg at h
    simp [mapGet, h.1, ih h.2]

theorem mem_fst_of_mapGet_some {k : Nat} {v : Val} {m : MapL}
    (h : mapGet k m = some v) : k ∈ m.map Prod.fst := by
  induction m with
  | nil => simp [mapGet] at h
  | cons kv t ih =>
    by_cases hk : k = kv.1
    · simp [hk]
    · simp only [mapGet, if_neg hk] at h
      simp [ih h]

theorem mapGet_isSome_of_mem_fst {k : Nat} {m : MapL}
    (h : k ∈ m.map Prod.fst) : (mapGet k m).isSome = true := by
  induction m with
  | nil => simp at h
  | cons kv t ih =>
    by_cases hk : k = kv.1
    · simp [mapGet, hk]
    · simp only [List.map_cons, List.mem_cons] at h
      rcases h with h | h
    
      · exact absurd h hk
      · simp [mapGet, if_neg hk, ih h]

theorem mapGet_mapInsert_self (k : Nat) (v : Val) (m : MapL) :
    mapGet k (mapInsert k v m) = some v := by
  induction m with
  | nil => simp [mapInsert, mapGet]
  | cons kv t ih =>
    by_cases h1 : k < kv.1
    · simp [mapInsert, h1, mapGet]
    · by_cases h2 : k = kv.1
      · simp [mapInsert, h1, h2, mapGet]
      · simp [mapInsert, h1, h2, mapGet, ih]

theorem mapGet_mapInsert_ne {j k : Nat} (hjk : j ≠ k) (v : Val) (m : MapL) :
    mapGet j (mapInsert k v m) = mapGet j m := by
  induction m with
  | nil => simp [mapInsert, mapGet, hjk]
  | cons kv t ih =>
    by_cases h1 : k < kv.1
    · simp [mapInsert, h1, mapGet, hjk]
    · by_cases h2 : k = kv.1
      · have : j ≠ kv.1 := h2 ▸ hjk
        simp [mapInsert, h1, h2, mapGet, hjk, this]
      · by_cases h3 : j = kv.1
        · simp [mapInsert, h1, h2, mapGet, h3]
        · simp [mapInsert, h1, h2, mapGet, h3, ih]

theorem mapGet_mapInsert_cases {j k : Nat} {v u : Val} {m : MapL}
    (h : mapGet j (mapInsert k v m) = some u) : j = k ∨ mapGet j m = some u := by
  by_cases hjk : j = k
  · exact Or.inl hjk
  · exact Or.inr (by rw [mapGet_mapInsert_ne hjk] at h; exact h)

theorem mapGet_mapRemove_ne {j k : Nat} (hjk : j ≠ k) (m : MapL) :
    mapGet j (mapRemove k m) = mapGet j m := by
  induction m with
  | nil => rfl
  | cons kv t ih =>
    by_cases h1 : k = kv.1
    · have : j ≠ kv.1 := h1 ▸ hjk
      simp [mapRemove, h1, mapGet, this]
    · by_cases h2 : j = kv.1
      · simp [mapRemove, h1, mapGet, h2]
      · simp [mapRemove, h1, mapGet, h2, ih]

theorem mapRemove_sublist (k : Nat) (m : MapL) : (mapRemove k m).Sublist m := by
  induction m with
  | nil => simp [mapRemove]
  | cons kv t ih =>
    by_cases h1 : k = kv.1
    · simp [mapRemove, h1]
    · simpa [mapRemove, h1] using ih.cons₂ kv

theorem sorted_mapRemove {k : Nat} {m : MapL} (hs : SortedMap m) :
    SortedMap (mapRemove k m) := hs.sublist (mapRemove_sublist k m)

theorem mapGet_mapRemove_self {k : Nat} {m : MapL} (hs : SortedMap m) :
    mapGet k (mapRemove k m) = none := by
  induction m with
  | nil => rfl
  | cons kv t ih =>
    replace hs := List.pairwise_cons.mp hs
    by_cases h1 : k = kv.1
    · have hnot : k ∉ t.map Prod.fst := by
        intro hmem
        rcases List.mem_map.mp hmem with ⟨p, hp, hfst⟩
        have hlt : kv.1 < p.1 := hs.1 p hp
        rw [hfst, h1] at hlt
        exact lt_irrefl _ hlt
      rw [mapRemove, if_pos h1]
      exact mapGet_eq_none hnot
    · simp [mapRemove, h1, mapGet, ih hs.2]

theorem mapGet_mapRemove_none {j k : Nat} {m : MapL} (h : mapGet j m = none) :
    mapGet j (mapRemove k m) = none := by
  by_cases hjk : j = k
  · subst hjk
    induction m with
    | nil => rfl
    | cons kv t ih =>
      by_cases h1 : j = kv.1
      · simp [mapGet, h1] at h
      · simp only [mapGet, if_neg h1] at h
        simp [mapRemove, h1, mapGet, ih h]
  · rw [mapGet_mapRemove_ne hjk]; exact h

theorem mapGet_mapRemove_some {j k : Nat} {u : Val} {m : MapL} (hs : SortedMap m)
    (h : mapGet j (mapRemove k m) = some u) : mapGet j m = some u := by
  by_cases hjk : j = k
  · subst hjk
    rw [mapGet_mapRemove_self hs] at h
    exact absurd h (by simp)
  · rw [mapGet_mapRemove_ne hjk] at h; exact h

theorem mem_fst_mapInsert {j k : Nat} {v : Val} {m : MapL}
    (h : j ∈ (mapInsert k v m).map Prod.fst) : j = k ∨ j ∈ m.map Prod.fst := by
  induction m with
  | nil => simpa [mapInsert] using h
  | cons kv t ih =>
    by_cases h1 : k < kv.1
    · simpa [mapInsert, h1] using h
    · by_cases h2 : k = kv.1
      · simp only [mapInsert, if_neg h1, if_pos h2,
          List.map_cons, List.mem_cons] at h
        rcases h with h | h
        · exact Or.inl h
        · exact Or.inr (by simp [h])
      · simp only [mapInsert, if_neg h1, if_neg h2, List.map_cons, List.mem_cons] at h
        rcases h with h | h
        · exact Or.inr (by simp [h])
        · rcases ih h with h' | h'
          · exact Or.inl h'
          · exact Or.inr (by simp [h'])

theorem sorted_mapInsert {k : Nat} {v : Val} {m : MapL} (hs : SortedMap m) :
    SortedMap (mapInsert k v m) := by
  induction m with
  | nil => simp [mapInsert, SortedMap]
  | cons kv t ih =>
    replace hs := List.pairwise_cons.mp hs
    by_cases h1 : k < kv.1
    · rw [mapInsert, if_pos h1]
      refine List.pairwise_cons.mpr ⟨?_, List.pairwise_cons.mpr hs⟩
      intro p hp
      show (k : Nat) < (p.1 : Nat)
      have h1n : (k : Nat) < (kv.1 : Nat) := h1
      rcases List.mem_cons.mp hp with h | h
      · rw [h]; exact h1n
      · have hlt : (kv.1 : Nat) < (p.1 : Nat) := hs.1 p h
        omega
    · by_cases h2 : k = kv.1
      · rw [mapInsert, if_neg h1, if_pos h2]
        refine List.pairwise_cons.mpr ⟨?_, hs.2⟩
        intro p hp
        show (k : Nat) < (p.1 : Nat)
        have hlt : (kv.1 : Nat) < (p.1 : Nat) := hs.1 p hp
        have h2n : (k : Nat) = (kv.1 : Nat) := h2
        omega
      · rw [mapInsert, if_neg h1, if_neg h2]
        refine List.pairwise_cons.mpr ⟨?_, ih hs.2⟩
        intro p hp
        show (kv.1 : Nat) < (p.1 : Nat)
        have hmem' : p.1 ∈ (mapInsert k v t).map Prod.fst :=
          List.mem_map.mpr ⟨p, hp, rfl⟩
        have h1n : ¬ (k : Nat) < (kv.1 : Nat) := h1
        have h2n : ¬ (k : Nat) = (kv.1 : Nat) := fun hh => h2 hh
        rcases mem_fst_mapInsert hmem' with h' | h'
        · have hpk : (p.1 : Nat) = (k : Nat) := h'
          omega
        · rcases List.mem_map.mp h' with ⟨q, hq, hfst⟩
          have hlt : (kv.1 : Nat) < (q.1 : Nat) := hs.1 q hq
          have hqp : (q.1 : Nat) = (p.1 : Nat) := hfst
          omega

/-! ### Refresh loop lemmas -/

theorem refreshStep_skip {digest : List Nat → List Nat} {m : MapL} {i : Nat}
    {lv rv pv : Val}
    (hl : mapGet (2 * (i / 2)) m = some lv)
    (hr : mapGet (2 * (i / 2) + 1) m = some rv)
    (hp : mapGet (i / 2) m = some pv) :
    refreshStep digest m i = .skip := by
  unfold refreshStep Oof.expand
  dsimp only
  rw [hl, hr, hp]

theorem refreshStep_left_missing {digest : List Nat → List Nat} {m : MapL} {i : Nat}
    (hl : mapGet (2 * (i / 2)) m = none) :
    refreshStep digest m i = .fail (2 * (i / 2)) := by
  unfold refreshStep Oof.expand
  dsimp only
  rw [hl]
  rcases mapGet (2 * (i / 2) + 1) m <;> rcases mapGet (i / 2) m <;> rfl

theorem refreshStep_right_missing {digest : List Nat → List Nat} {m : MapL} {i : Nat}
    {lv : Val}
    (hl : mapGet (2 * (i / 2)) m = some lv)
    (hr : mapGet (2 * (i / 2) + 1) m = none) :
    refreshStep digest m i = .fail (2 * (i / 2) + 1) := by
  unfold refreshStep Oof.expand
  dsimp only
  rw [hl, hr]

theorem refreshStep_derive {digest : List Nat → List Nat} {m : MapL} {i : Nat}
    {lv rv : Val}
    (hl : mapGet (2 * (i / 2)) m = some lv)
    (hr : mapGet (2 * (i / 2) + 1) m = some rv)
    (hp : mapGet (i / 2) m = none) :
    refreshStep digest m i =
      .derived (mapInsert (i / 2) (Oof.hash digest lv rv) m) (i / 2) := by
  unfold refreshStep Oof.expand
  dsimp only
  rw [hl, hr, hp]

theorem refreshStep_derived_preserves {digest : List Nat → List Nat} {m m' : MapL}
    {i p k : Nat} {v : Val}
    (h : refreshStep digest m i = .derived m' p)
    (hk : mapGet k m = some v) : mapGet k m' = some v := by
  unfold refreshStep Oof.expand at h
  dsimp only at h
  rcases hl : mapGet (2 * (i / 2)) m with _ | lv <;> rw [hl] at h
  · exact absurd h (by simp)
  rcases hr : mapGet (2 * (i / 2) + 1) m with _ | rv <;> rw [hr] at h
  · exact absurd h (by simp)
  rcases hp : mapGet (i / 2) m with _ | pv <;> rw [hp] at h
  · simp only [StepRes.derived.injEq] at h
    rw [← h.1]
    have hkp : k ≠ i / 2 := by
      intro hh
      rw [hh, hp] at hk
      exact absurd hk (by simp)
    rw [mapGet_mapInsert_ne hkp]
    exact hk
  · exact absurd h (by simp)

theorem refreshLoop_preserves (digest : List Nat → List Nat) :
    ∀ (fuel : Nat) (m : MapL) (nodes : List Nat) (pos : Nat) (m' : MapL),
      refreshLoop digest fuel m nodes pos = .ok m' →
      ∀ (k : Nat) (v : Val), mapGet k m = some v → mapGet k m' = some v := by
  intro fuel
  induction fuel with
  | zero => intro m nodes pos m' h; exact absurd h (by simp [refreshLoop])
  | succ fuel ih =>
    intro m nodes pos m' h k v hk
    rw [refreshLoop] at h
    rcases hpos : nodes.get? pos with _ | i <;> rw [hpos] at h <;> dsimp only at h
    · exact absurd h (by simp)
    by_cases hi : 1 < i
    · rw [if_pos hi] at h
      cases hstep : refreshStep digest m i with
      | derived m₂ p =>
        rw [hstep] at h
        exact ih m₂ (nodes ++ [p]) (pos + 1) m' h k v
          (refreshStep_derived_preserves hstep hk)
      | skip =>
        rw [hstep] at h
        exact ih m nodes (pos + 1) m' h k v hk
      | fail j =>
        rw [hstep] at h
        exact absurd h (by simp)
    · rw [if_neg hi] at h
      simp only [LoopResult.ok.injEq] at h
      rw [← h]
      exact hk

theorem refresh_preserves {digest : List Nat → List Nat} {t : Oof} {m' : MapL}
    (h : Oof.refresh digest t = .ok m') {k : Nat} {v : Val}
    (hk : mapGet k t.map = some v) : mapGet k m' = some v :=
  refreshLoop_preserves digest (initFuel t.map) t.map (Oof.keys t) 0 m' h k v hk

theorem root_ok_elim {digest : List Nat → List Nat} {t : Oof} {v : Val} {t' : Oof}
    (h : Oof.root digest t = .ok v t') :
    Oof.refresh digest t = .ok t'.map ∧ mapGet 1 t'.map = some v ∧
      t'.height = t.height := by
  unfold Oof.root at h
  rcases hr : Oof.refresh digest t with m | _ | _ | _ <;> rw [hr] at h <;> dsimp only at h
  · rcases hg : mapGet 1 m with _ | w <;> rw [hg] at h <;> dsimp only at h
    · exact absurd h (by simp)
    · simp only [RootResult.ok.injEq] at h
      refine ⟨?_, ?_, ?_⟩
      · rw [← h.2]
      · rw [← h.2, hg, h.1]
      · rw [← h.2]
  · exact absurd h (by simp)
  · exact absurd h (by simp)
  · exact absurd h (by simp)

/-! ### into_branch fold lemmas -/

theorem branchFold_nil (m : MapL) : branchFold [] m = m := rfl

theorem branchFold_cons (k : Nat) (ks : List Nat) (m : MapL) :
    branchFold (k :: ks) m =
      branchFold ks
        (if (mapGet (2 * k) m).isSome || (mapGet (2 * k + 1) m).isSome then
          mapRemove k m
        else m) := rfl

theorem branchFold_not_mem :
    ∀ (ks : List Nat) (m : MapL) (k : Nat), k ∉ ks →
      mapGet k (branchFold ks m) = mapGet k m := by
  intro ks
  induction ks with
  | nil => intro m k _; rfl
  | cons j ks ih =>
    intro m k hk
    have hkj : k ≠ j := fun h => hk (h ▸ List.mem_cons_self j ks)
    have hks : k ∉ ks := fun h => hk (List.mem_cons_of_mem j h)
    rw [branchFold_cons, ih _ _ hks]
    by_cases hc : (mapGet (2 * j) m).isSome || (mapGet (2 * j + 1) m).isSome
    · rw [if_pos hc, mapGet_mapRemove_ne hkj]
    · rw [if_neg hc]

theorem branchFold_sorted :
    ∀ (ks : List Nat) (m : MapL), SortedMap m → SortedMap (branchFold ks m) := by
  intro ks
  induction ks with
  | nil => intro m hs; exact hs
  | cons j ks ih =>
    intro m hs
    rw [branchFold_cons]
    by_cases hc : (mapGet (2 * j) m).isSome || (mapGet (2 * j + 1) m).isSome
    · rw [if_pos hc]; exact ih _ (sorted_mapRemove hs)
    · rw [if_neg hc]; exact ih _ hs

theorem branchFold_get_some :
    ∀ (ks : List Nat) (m : MapL) (j : Nat) (v : Val), SortedMap m →
      mapGet j (branchFold ks m) = some v → mapGet j m = some v := by
  intro ks
  induction ks with
  | nil => intro m j v _ h; exact h
  | cons i ks ih =>
    intro m j v hs h
    rw [branchFold_cons] at h
    by_cases hc : (mapGet (2 * i) m).isSome || (mapGet (2 * i + 1) m).isSome
    · rw [if_pos hc] at h
      exact mapGet_mapRemove_some hs (ih _ _ _ (sorted_mapRemove hs) h)
    · rw [if_neg hc] at h
      exact ih _ _ _ hs h

theorem branchFold_get_none :
    ∀ (ks : List Nat) (m : MapL) (j : Nat), mapGet j m = none →
      mapGet j (branchFold ks m) = none := by
  intro ks
  induction ks with
  | nil => intro m j h; exact h
  | cons i ks ih =>
    intro m j h
    rw [branchFold_cons]
    by_cases hc : (mapGet (2 * i) m).isSome || (mapGet (2 * i + 1) m).isSome
    · rw [if_pos hc]; exact ih _ _ (mapGet_mapRemove_none h)
    · rw [if_neg hc]; exact ih _ _ h

theorem branchFold_keep :
    ∀ (ks : List Nat) (m : MapL) (k : Nat) (v : Val), SortedMap m →
      mapGet k m = some v → mapGet (2 * k) m = none → mapGet (2 * k + 1) m = none →
      mapGet k (branchFold ks m) = some v := by
  intro ks
  induction ks with
  | nil => intro m k v _ hk _ _; exact hk
  | cons j ks ih =>
    intro m k v hs hk hl hr
    rw [branchFold_cons]
    by_cases hjk : j = k
    · subst hjk
      rw [if_neg (by simp [hl, hr])]
      exact ih _ _ _ hs hk hl hr
    · by_cases hc : (mapGet (2 * j) m).isSome || (mapGet (2 * j + 1) m).isSome
      · rw [if_pos hc]
        exact ih _ _ _ (sorted_mapRemove hs)
          (by rw [mapGet_mapRemove_ne (fun h => hjk h.symm)]; exact hk)
          (mapGet_mapRemove_none hl) (mapGet_mapRemove_none hr)
      · rw [if_neg hc]
        exact ih _ _ _ hs hk hl hr

theorem branchFold_visit :
    ∀ (ks : List Nat) (m : MapL), SortedMap m →
      List.Pairwise (fun a b => b < a) ks → (∀ j ∈ ks, 1 ≤ j) →
      ∀ k ∈ ks,
        mapGet k (branchFold ks m) =
          if (mapGet (2 * k) (branchFold ks m)).isSome ||
              (mapGet (2 * k + 1) (branchFold ks m)).isSome then
            none
          else mapGet k m := by
  intro ks
  induction ks with
  | nil => intro m _ _ _ k hk; exact absurd hk (by simp)
  | cons j ks ih =>
    intro m hs hp h1 k hk
    replace hp := List.pairwise_cons.mp hp
    rw [branchFold_cons]
    rcases List.mem_cons.mp hk with hkj | hkrest
    · subst hkj
      have hk1 : 1 ≤ k := h1 k (List.mem_cons_self _ _)
      have hnotrest : k ∉ ks := fun h => lt_irrefl k (hp.1 k h)
      have hl_not : 2 * k ∉ ks := fun h => by
        have := hp.1 _ h
        omega
      have hr_not : 2 * k + 1 ∉ ks := fun h => by
        have := hp.1 _ h
        omega
      by_cases hc : (mapGet (2 * k) m).isSome || (mapGet (2 * k + 1) m).isSome
      · rw [if_pos hc]
        have hB : mapGet k (branchFold ks (mapRemove k m)) = none := by
          rw [branchFold_not_mem ks _ k hnotrest]
          exact mapGet_mapRemove_self hs
        rw [hB]
        have hBl : mapGet (2 * k) (branchFold ks (mapRemove k m)) = mapGet (2 * k) m := by
          rw [branchFold_not_mem ks _ _ hl_not, mapGet_mapRemove_ne (by omega)]
        have hBr : mapGet (2 * k + 1) (branchFold ks (mapRemove k m)) =
            mapGet (2 * k + 1) m := by
          rw [branchFold_not_mem ks _ _ hr_not, mapGet_mapRemove_ne (by omega)]
        rw [hBl, hBr, if_pos hc]
      · rw [if_neg hc]
        have hBl : mapGet (2 * k) (branchFold ks m) = mapGet (2 * k) m :=
          branchFold_not_mem ks _ _ hl_not
        have hBr : mapGet (2 * k + 1) (branchFold ks m) = mapGet (2 * k + 1) m :=
          branchFold_not_mem ks _ _ hr_not
        rw [branchFold_not_mem ks _ k hnotrest, hBl, hBr, if_neg hc]
    · have hjk : j ≠ k := fun h => lt_irrefl k (h ▸ hp.1 k hkrest)
      by_cases hc : (mapGet (2 * j) m).isSome || (mapGet (2 * j + 1) m).isSome
      · rw [if_pos hc]
        rw [ih _ (sorted_mapRemove hs) hp.2 (fun x hx => h1 x (List.mem_cons_of_mem j hx))
          k hkrest]
        rw [mapGet_mapRemove_ne (fun h => hjk h.symm)]
      · rw [if_neg hc]
        exact ih _ hs hp.2 (fun x hx => h1 x (List.mem_cons_of_mem j hx)) k hkrest

/-! ### fill_with_default loop lemmas -/

theorem condInsert_preserves {j k : Nat} {w v : Val} {m : MapL}
    (hk : mapGet k m = some v) :
    mapGet k (if (mapGet j m).isSome = true then m else mapInsert j w m) = some v := by
  by_cases hc : (mapGet j m).isSome = true
  · rw [if_pos hc]; exact hk
  · rw [if_neg hc]
    have hj : mapGet j m = none := Option.not_isSome_iff_eq_none.mp hc
    have hkj : k ≠ j := by intro h; rw [h, hj] at hk; exact absurd hk (by simp)
    rw [mapGet_mapInsert_ne hkj]
    exact hk

theorem condInsert_cases {j k : Nat} {w v : Val} {m : MapL}
    (h : mapGet k (if (mapGet j m).isSome = true then m else mapInsert j w m) = some v) :
    k = j ∨ mapGet k m = some v := by
  by_cases hc : (mapGet j m).isSome = true
  · rw [if_pos hc] at h; exact Or.inr h
  · rw [if_neg hc] at h; exact mapGet_mapInsert_cases h

theorem condInsert_sorted {j : Nat} {w : Val} {m : MapL} (hs : SortedMap m) :
    SortedMap (if (mapGet j m).isSome = true then m else mapInsert j w m) := by
  by_cases hc : (mapGet j m).isSome = true
  · rw [if_pos hc]; exact hs
  · rw [if_neg hc]; exact sorted_mapInsert hs

theorem fillLoop_preserves (digest : List Nat → List Nat) (default : Val) (hgt : Nat) :
    ∀ (fuel : Nat) (m : MapL) (nodes : List Nat) (pos : Nat) (F : MapL),
      fillLoop digest default hgt fuel m nodes pos = .ok F →
      ∀ (k : Nat) (v : Val), mapGet k m = some v → mapGet k F = some v := by
  intro fuel
  induction fuel with
  | zero => intro m nodes pos F h; exact absurd h (by simp [fillLoop])
  | succ fuel ih =>
    intro m nodes pos F h k v hk
    rw [fillLoop] at h
    rcases hpos : nodes.get? pos with _ | i <;> rw [hpos] at h <;>
      dsimp only [Oof.expand] at h
    · exact absurd h (by simp)
    by_cases hi : 1 < i
    · rw [if_pos hi] at h
      by_cases hpar : (mapGet (i / 2) m).isSome = true
      · rw [if_pos hpar] at h
        exact ih m nodes (pos + 1) F h k v hk
      · rw [if_neg hpar] at h
        have hpnone : mapGet (i / 2) m = none := Option.not_isSome_iff_eq_none.mp hpar
        have hkp : k ≠ i / 2 := by
          intro hh; rw [hh, hpnone] at hk; exact absurd hk (by simp)
        refine ih _ _ _ F h k v ?_
        rw [mapGet_mapInsert_ne hkp]
        exact condInsert_preserves (condInsert_preserves hk)
    · rw [if_neg hi] at h
      simp only [LoopResult.ok.injEq] at h
      rw [← h]
      exact hk

theorem fillLoop_sorted (digest : List Nat → List Nat) (default : Val) (hgt : Nat) :
    ∀ (fuel : Nat) (m : MapL) (nodes : List Nat) (pos : Nat) (F : MapL),
      fillLoop digest default hgt fuel m nodes pos = .ok F →
      SortedMap m → SortedMap F := by
  intro fuel
  induction fuel with
  | zero => intro m nodes pos F h; exact absurd h (by simp [fillLoop])
  | succ fuel ih =>
    intro m nodes pos F h hs
    rw [fillLoop] at h
    rcases hpos : nodes.get? pos with _ | i <;> rw [hpos] at h <;>
      dsimp only [Oof.expand] at h
    · exact absurd h (by simp)
    by_cases hi : 1 < i
    · rw [if_pos hi] at h
      by_cases hpar : (mapGet (i / 2) m).isSome = true
      · rw [if_pos hpar] at h
        exact ih m nodes (pos + 1) F h hs
      · rw [if_neg hpar] at h
        exact ih _ _ _ F h (sorted_mapInsert (condInsert_sorted (condInsert_sorted hs)))
    · rw [if_neg hi] at h
      simp only [LoopResult.ok.injEq] at h
      rw [← h]
      exact hs

theorem fillLoop_bound (digest : List Nat → List Nat) (default : Val) (hgt : Nat)
    (B : Nat) (hBeven : B % 2 = 0) :
    ∀ (fuel : Nat) (m : MapL) (nodes : List Nat) (pos : Nat) (F : MapL),
      fillLoop digest default hgt fuel m nodes pos = .ok F →
      (∀ (k : Nat) (v : Val), mapGet k m = some v → 1 ≤ k ∧ k < B) →
      (∀ i ∈ nodes, 1 ≤ i ∧ i < B) →
      ∀ (k : Nat) (v : Val), mapGet k F = some v → 1 ≤ k ∧ k < B := by
  intro fuel
  induction fuel with
  | zero => intro m nodes pos F h; exact absurd h (by simp [fillLoop])
  | succ fuel ih =>
    intro m nodes pos F h hm hn k v hk
    rw [fillLoop] at h
    rcases hpos : nodes.get? pos with _ | i <;> rw [hpos] at h <;>
      dsimp only [Oof.expand] at h
    · exact absurd h (by simp)
    have hiB : 1 ≤ i ∧ i < B := hn i (List.get?_mem hpos)
    by_cases hi : 1 < i
    · rw [if_pos hi] at h
      by_cases hpar : (mapGet (i / 2) m).isSome = true
      · rw [if_pos hpar] at h
        exact ih m nodes (pos + 1) F h hm hn k v hk
      · rw [if_neg hpar] at h
        refine ih _ _ _ F h ?_ ?_ k v hk
        · intro x u hx
          rcases mapGet_mapInsert_cases hx with hxp | hx2
          · constructor <;> omega
          · rcases condInsert_cases hx2 with hxr | hx1
            · constructor <;> omega
            · rcases condInsert_cases hx1 with hxl | hx0
              · constructor <;> omega
              · exact hm x u hx0
        · intro x hx
          rcases List.mem_append.mp hx with hx | hx
          · exact hn x hx
          · have hxp : x = i / 2 := by simpa using hx
            constructor <;> omega
    · rw [if_neg hi] at h
      simp only [LoopResult.ok.injEq] at h
      subst h
      exact hm k v hk

/-! ### Blob codec lemmas -/

theorem bytesLE_length : ∀ (w n : Nat), (bytesLE w n).length = w := by
  intro w
  induction w with
  | zero => intro n; rfl
  | succ w ih => intro n; simp [bytesLE, ih]

theorem readLE_bytesLE : ∀ (w n : Nat), n < 256 ^ w → readLE (bytesLE w n) = n := by
  intro w
  induction w with
  | zero => intro n h; interval_cases n; rfl
  | succ w ih =>
    intro n h
    have hdiv : n / 256 < 256 ^ w := by
      rw [Nat.div_lt_iff_lt_mul (by norm_num)]
      calc n < 256 ^ (w + 1) := h
        _ = 256 ^ w * 256 := by ring
    rw [bytesLE, readLE, ih _ hdiv, Nat.mod_add_div]

theorem flatten_len : ∀ (chunks : List (List Nat)) (w : Nat),
    (∀ c ∈ chunks, c.length = w) → chunks.flatten.length = w * chunks.length := by
  intro chunks
  induction chunks with
  | nil => intro w _; simp
  | cons c cs ih =>
    intro w hw
    have hc : c.length = w := hw c (List.mem_cons_self _ _)
    have hcs := ih w (fun x hx => hw x (List.mem_cons_of_mem c hx))
    simp only [List.flatten_cons, List.length_append, List.length_cons, hc, hcs]
    ring

theorem parseChunks_flatten : ∀ (chunks : List (List Nat)) (rest : List Nat) (w : Nat),
    (∀ c ∈ chunks, c.length = w) →
    parseChunks w chunks.length (chunks.flatten ++ rest) = chunks := by
  intro chunks
  induction chunks with
  | nil => intro rest w _; rfl
  | cons c cs ih =>
    intro rest w hw
    have hc : c.length = w := hw c (List.mem_cons_self _ _)
    have htake : (c ++ (cs.flatten ++ rest)).take w = c := by
      rw [← hc, List.take_left]
    have hdrop : (c ++ (cs.flatten ++ rest)).drop w = cs.flatten ++ rest := by
      rw [← hc, List.drop_left]
    simp only [List.length_cons, parseChunks, List.flatten_cons, List.append_assoc]
    rw [htake, hdrop, ih rest w (fun x hx => hw x (List.mem_cons_of_mem c hx))]

theorem mapInsert_append_last : ∀ (m : MapL) (k : Nat) (v : Val),
    (∀ p ∈ m, p.1 < k) → mapInsert k v m = m ++ [(k, v)] := by
  intro m
  induction m with
  | nil => intro k v _; rfl
  | cons kv t ih =>
    intro k v h
    have h1 : kv.1 < k := h kv (List.mem_cons_self _ _)
    rw [mapInsert, if_neg (by omega), if_neg (by omega)]
    rw [ih k v (fun p hp => h p (List.mem_cons_of_mem kv hp))]
    rfl

theorem foldl_mapInsert_sorted : ∀ (m acc : MapL),
    SortedMap (acc ++ m) →
    List.foldl (fun s kv => mapInsert kv.1 kv.2 s) acc m = acc ++ m := by
  intro m
  induction m with
  | nil => intro acc _; simp
  | cons kv t ih =>
    intro acc hs
    have hlt : ∀ p ∈ acc, p.1 < kv.1 := by
      intro p hp
      have := (List.pairwise_append.mp hs).2.2 p hp kv (List.mem_cons_self _ _)
      exact this
    have hstep : mapInsert kv.1 kv.2 acc = acc ++ [kv] := by
      rw [mapInsert_append_last acc kv.1 kv.2 hlt]
    rw [List.foldl_cons, hstep]
    have hre : (acc ++ [kv]) ++ t = acc ++ kv :: t := by
      rw [List.append_assoc]
      rfl
    rw [ih (acc ++ [kv]) (by rw [hre]; exact hs), hre]

theorem zip_fst_snd : ∀ (m : MapL), (m.map Prod.fst).zip (m.map Prod.snd) = m := by
  intro m
  induction m with
  | nil => rfl
  | cons kv t ih => simp [ih]

/-! ### Keys lemmas -/

theorem mapGet_some_mem {k : Nat} {v : Val} {m : MapL}
    (h : mapGet k m = some v) : (k, v) ∈ m := by
  induction m with
  | nil => exact absurd h (by simp [mapGet])
  | cons kv t ih =>
    by_cases hk : k = kv.1
    · rw [mapGet, if_pos hk] at h
      have : (k, v) = kv := by
        rcases kv with ⟨a, b⟩
        simp only [Option.some.injEq] at h
        simp [hk, h]
      rw [this]
      exact List.mem_cons_self _ _
    · rw [mapGet, if_neg hk] at h
      exact List.mem_cons_of_mem _ (ih h)

theorem keys_pairwise_gt {t : Oof} (hs : SortedMap t.map) :
    List.Pairwise (fun a b => b < a) (Oof.keys t) := by
  rw [Oof.keys, List.pairwise_reverse]
  exact List.pairwise_map.mpr hs

theorem mem_keys_iff {t : Oof} {k : Nat} :
    k ∈ Oof.keys t ↔ k ∈ t.map.map Prod.fst := by
  rw [Oof.keys, List.mem_reverse]

/-! ### Claim theorems -/

/-- Claim C10: `set(k, v)` is a pure point update of the map: it returns
the previous value stored at `k`, afterwards `get(k)` yields `v`, and
every other key's binding (and the height) is exactly what it was before
the call. -/
theorem claim_C10_set_pure (t : Oof) (k : Nat) (v : Val) (j : Nat) (hj : j ≠ k) :
    (Oof.set t k v).1 = Oof.get t k ∧
    Oof.get (Oof.set t k v).2 k = some v ∧
    Oof.get (Oof.set t k v).2 j = Oof.get t j ∧
    ((Oof.set t k v).2).height = t.height := by
  refine ⟨rfl, ?_, ?_, rfl⟩
  · show mapGet k (mapInsert k v t.map) = some v
    exact mapGet_mapInsert_self k v t.map
  · show mapGet j (mapInsert k v t.map) = mapGet j t.map
    exact mapGet_mapInsert_ne hj v t.map

/-- Witness for C10 at the concrete tree `{1 ↦ [1]}`, writing key 7. -/
theorem claim_C10_set_pure_witness :
    (Oof.set ⟨[(1, [1])], 1⟩ 7 [2]).1 = Oof.get ⟨[(1, [1])], 1⟩ 7 ∧
    Oof.get (Oof.set ⟨[(1, [1])], 1⟩ 7 [2]).2 7 = some [2] ∧
    Oof.get (Oof.set ⟨[(1, [1])], 1⟩ 7 [2]).2 1 = Oof.get ⟨[(1, [1])], 1⟩ 1 ∧
    ((Oof.set ⟨[(1, [1])], 1⟩ 7 [2]).2).height = 1 :=
  claim_C10_set_pure ⟨[(1, [1])], 1⟩ 7 [2] 1 (by decide)

/-- Claim C4: for a tree with exactly the entries `{2 ↦ v2, 6 ↦ v6, 7 ↦ v7}`,
`root()` succeeds and returns `compress(v2, compress(v6, v7))`, where
`compress` concatenates its arguments and keeps the first 32 bytes of the
digest (`Oof.hash`). -/
theorem claim_C4_root_267 (digest : List Nat → List Nat) (v2 v6 v7 : Val) (h : Nat) :
    Oof.rootValue digest ⟨[(2, v2), (6, v6), (7, v7)], h⟩ =
      some (Oof.hash digest v2 (Oof.hash digest v6 v7)) := by
  with_unfolding_all rfl

/-- Claim C3: `root()` on an empty tree does not return `EntryNotFound(1)`;
the `nodes[position]` read in `refresh` is out of bounds on the very first
iteration, i.e. the code panics (while the `ok_or(EntryNotFound(1))`
lookup in `root` that the claim describes is never reached). -/
theorem claim_C3_empty_root_panics (digest : List Nat → List Nat) (h : Nat) :
    Oof.root digest ⟨[], h⟩ = .oob ∧ Oof.root digest ⟨[], h⟩ ≠ .err 1 := by
  have h0 : Oof.root digest ⟨[], h⟩ = .oob := by rfl
  exact ⟨h0, by rw [h0]; decide⟩

/-- A 32-byte value all of whose bytes are `n`, for concrete test inputs. -/
def repV (n : Nat) : Val := List.replicate 32 n

/-- Claim C1: `set` does no ancestor invalidation, so after computing and
caching the root of `{2, 6, 7}`, overwriting leaf 7 and calling `root()`
again returns the stale cached root, not a root reflecting the new leaf:
with digest `List.reverse`, the cached root of values `repV 2/6/7` is
`repV 7`; after `set(7, repV 8)` the code still returns `repV 7`, while a
freshly built tree with the new leaf yields `repV 8`. -/
theorem claim_C1_stale_root :
    Oof.root List.reverse ⟨[(2, repV 2), (6, repV 6), (7, repV 7)], 1⟩ =
      .ok (repV 7)
        ⟨[(1, repV 7), (2, repV 2), (3, repV 7), (6, repV 6), (7, repV 7)], 1⟩ ∧
    (Oof.set ⟨[(1, repV 7), (2, repV 2), (3, repV 7), (6, repV 6), (7, repV 7)], 1⟩
        7 (repV 8)).2 =
      ⟨[(1, repV 7), (2, repV 2), (3, repV 7), (6, repV 6), (7, repV 8)], 1⟩ ∧
    Oof.rootValue List.reverse
        ⟨[(1, repV 7), (2, repV 2), (3, repV 7), (6, repV 6), (7, repV 8)], 1⟩ =
      some (repV 7) ∧
    Oof.rootValue List.reverse ⟨[(2, repV 2), (6, repV 6), (7, repV 8)], 1⟩ =
      some (repV 8) ∧
    repV 7 ≠ repV 8 := by
  refine ⟨by decide, by decide, by decide, by decide, by decide⟩

/-- Claim C2 counterexample: in the tree `{1 ↦ [1], 3 ↦ [3]}` the popped
index 3 expands to `(2, 3, 1)` with the parent 1 cached, yet `root()`
fails with `EntryNotFound(2)` instead of doing nothing, because the
source match tests the children before the parent. -/
theorem claim_C2_counterexample :
    Oof.root (fun l => l) ⟨[(1, [1]), (3, [3])], 1⟩ = .err 2 ∧
    mapGet 1 ([(1, [1]), (3, [3])] : MapL) = some [1] := by
  refine ⟨by decide, by decide⟩

/-- Claim C2 (amended): when the popped index `i > 1` has a cached parent,
the iteration does nothing only if both children are present as well;
if a child is missing the iteration fails with `EntryNotFound` of the
first missing child (left before right), cached parent notwithstanding. -/
theorem claim_C2_parent_cached (digest : List Nat → List Nat) (m : MapL) (i : Nat)
    (pv : Val) (ol or' : Option Val)
    (hp : mapGet (i / 2) m = some pv)
    (hl : mapGet (2 * (i / 2)) m = ol)
    (hr : mapGet (2 * (i / 2) + 1) m = or') :
    refreshStep digest m i =
      match ol, or' with
      | some _, some _ => .skip
      | none, _ => .fail (2 * (i / 2))
      | some _, none => .fail (2 * (i / 2) + 1) := by
  match ol, or' with
  | some lv, some rv => exact refreshStep_skip hl hr hp
  | none, _ => exact refreshStep_left_missing hl
  | some lv, none => exact refreshStep_right_missing hl hr

/-- Witness for the amended C2 at `{1 ↦ [1], 2 ↦ [2], 3 ↦ [3]}`, popped
index 3: parent 1 and both children cached, so the step is a no-op. -/
theorem claim_C2_parent_cached_witness :
    refreshStep (fun l => l) [(1, [1]), (2, [2]), (3, [3])] 3 = .skip :=
  claim_C2_parent_cached (fun l => l) [(1, [1]), (2, [2]), (3, [3])] 3
    [1] (some [2]) (some [3]) rfl rfl rfl

/-- Claim C5: when recomputation pops a node whose parent is uncached and
a sibling is missing, the step fails with `EntryNotFound` of the first
missing sibling (left checked before right); in particular for the tree
`{2, 6, 7}` with one entry removed, `root()` names exactly the removed
index. -/
theorem claim_C5_missing_sibling (digest : List Nat → List Nat) (m : MapL) (i : Nat)
    (ol or' : Option Val) (v2 v6 v7 : Val) :
    (mapGet (i / 2) m = none → mapGet (2 * (i / 2)) m = ol →
      mapGet (2 * (i / 2) + 1) m = or' → (ol = none ∨ or' = none) →
      refreshStep digest m i =
        .fail (match ol with
          | none => 2 * (i / 2)
          | some _ => 2 * (i / 2) + 1)) ∧
    Oof.root digest ⟨[(6, v6), (7, v7)], 1⟩ = .err 2 ∧
    Oof.root digest ⟨[(2, v2), (7, v7)], 1⟩ = .err 6 ∧
    Oof.root digest ⟨[(2, v2), (6, v6)], 1⟩ = .err 7 := by
  refine ⟨?_, ?_, ?_, ?_⟩
  · intro hp hl hr habs
    match ol, or' with
    | none, _ => exact refreshStep_left_missing hl
    | some lv, none => exact refreshStep_right_missing hl hr
    | some lv, some rv =>
      rcases habs with h | h <;> exact absurd h (by simp)
  · with_unfolding_all rfl
  · with_unfolding_all rfl
  · with_unfolding_all rfl

/-- Witness for C5: empty map, popped index 3 (parent 1 and both children
absent, so the reported index is the left child 2), plus the three
concrete one-entry-removed trees. -/
theorem claim_C5_missing_sibling_witness :
    refreshStep (fun l => l) [] 3 = .fail 2 ∧
    Oof.root (fun l => l) ⟨[(6, [6]), (7, [7])], 1⟩ = .err 2 ∧
    Oof.root (fun l => l) ⟨[(2, [2]), (7, [7])], 1⟩ = .err 6 ∧
    Oof.root (fun l => l) ⟨[(2, [2]), (6, [6])], 1⟩ = .err 7 :=
  ⟨(claim_C5_missing_sibling (fun l => l) [] 3 none none [2] [6] [7]).1
      rfl rfl rfl (Or.inl rfl),
    (claim_C5_missing_sibling (fun l => l) [] 3 none none [2] [6] [7]).2.1,
    (claim_C5_missing_sibling (fun l => l) [] 3 none none [2] [6] [7]).2.2.1,
    (claim_C5_missing_sibling (fun l => l) [] 3 none none [2] [6] [7]).2.2.2⟩

/-- Claim C6 counterexample: on `{1 ↦ [1], 4 ↦ [4], 5 ↦ [5]}` the first
`root()` succeeds (deriving and caching node 2, then stopping at the
initial key 1), but the second `root()` fails with `EntryNotFound(3)`:
idempotence of a successful `root()` does not hold. -/
theorem claim_C6_counterexample :
    Oof.root (fun l => l) ⟨[(1, [1]), (4, [4]), (5, [5])], 1⟩ =
      .ok [1] ⟨[(1, [1]), (2, [4, 5]), (4, [4]), (5, [5])], 1⟩ ∧
    Oof.root (fun l => l) ⟨[(1, [1]), (2, [4, 5]), (4, [4]), (5, [5])], 1⟩ =
      .err 3 := by
  refine ⟨by decide, by decide⟩

/-- Claim C6 (amended): refresh never overwrites an existing binding, so
when a first `root()` succeeds and a second `root()` also succeeds, the
second returns the identical value and preserves every binding present
after the first call; the second call may however fail, or insert new
derived entries. -/
theorem claim_C6_second_root (digest : List Nat → List Nat) (t : Oof)
    (v w : Val) (t₁ t₂ : Oof) (k : Nat) (u : Val)
    (h1 : Oof.root digest t = .ok v t₁)
    (h2 : Oof.root digest t₁ = .ok w t₂)
    (hk : mapGet k t₁.map = some u) :
    w = v ∧ mapGet k t₂.map = some u := by
  obtain ⟨hr1, hg1, hh1⟩ := root_ok_elim h1
  obtain ⟨hr2, hg2, hh2⟩ := root_ok_elim h2
  constructor
  · have hv : mapGet 1 t₂.map = some v := refresh_preserves hr2 hg1
    rw [hg2] at hv
    exact (Option.some.injEq _ _).mp hv
  · exact refresh_preserves hr2 hk

/-- Witness for the amended C6 on `{2 ↦ [2], 3 ↦ [3]}`: both calls return
the derived root `[2, 3]` and leaf 2 is preserved. -/
theorem claim_C6_second_root_witness :
    ([2, 3] : Val) = [2, 3] ∧
    mapGet 2 ([(1, [2, 3]), (2, [2]), (3, [3])] : MapL) = some [2] :=
  claim_C6_second_root (fun l => l) ⟨[(2, [2]), (3, [3])], 1⟩ [2, 3] [2, 3]
    ⟨[(1, [2, 3]), (2, [2]), (3, [3])], 1⟩ ⟨[(1, [2, 3]), (2, [2]), (3, [3])], 1⟩
    2 [2] (by decide) (by decide) (by decide)

/-- Claim C7 counterexample: in `{1 ↦ [1], 2 ↦ [2]}` node 1 has exactly
one child present (2 is present, 3 is absent), so by the claim it should
be kept, yet `into_branch` deletes it: the source removes a node when
either child is present, not when both are. -/
theorem claim_C7_counterexample :
    (Oof.into_branch ⟨[(1, [1]), (2, [2])], 1⟩).map = [(2, [2])] ∧
    mapGet 3 ([(1, [1]), (2, [2])] : MapL) = none := by
  refine ⟨by decide, by decide⟩

/-- Claim C7 (amended): `into_branch` deletes a node's entry exactly when
at least one of its children survives in the minimized result;
equivalently a key is kept iff it was present and both its children are
absent from the result. -/
theorem claim_C7_into_branch_char (t : Oof) (k : Nat) (hs : SortedMap t.map)
    (h1 : ∀ kv ∈ t.map, 1 ≤ kv.1) :
    (mapGet k (Oof.into_branch t).map).isSome = true ↔
      ((mapGet k t.map).isSome = true ∧
        mapGet (2 * k) (Oof.into_branch t).map = none ∧
        mapGet (2 * k + 1) (Oof.into_branch t).map = none) := by
  have hmap : (Oof.into_branch t).map = branchFold (Oof.keys t) t.map := rfl
  rw [hmap]
  have hp : List.Pairwise (fun a b => b < a) (Oof.keys t) := keys_pairwise_gt hs
  have h1' : ∀ j ∈ Oof.keys t, 1 ≤ j := by
    intro j hj
    rcases List.mem_map.mp (mem_keys_iff.mp hj) with ⟨kv, hkv, hfst⟩
    rw [← hfst]
    exact h1 kv hkv
  by_cases hk : k ∈ Oof.keys t
  · have hvisit := branchFold_visit (Oof.keys t) t.map hs hp h1' k hk
    by_cases hc : (mapGet (2 * k) (branchFold (Oof.keys t) t.map)).isSome = true ∨
        (mapGet (2 * k + 1) (branchFold (Oof.keys t) t.map)).isSome = true
    · rw [if_pos (by simpa using hc)] at hvisit
      rw [hvisit]
      constructor
      · intro hfalse; exact absurd hfalse (by simp)
      · rintro ⟨_, hl, hr⟩
        rcases hc with hc | hc
        · rw [hl] at hc; exact absurd hc (by simp)
        · rw [hr] at hc; exact absurd hc (by simp)
    · push_neg at hc
      rw [if_neg (by simpa using hc)] at hvisit
      rw [hvisit]
      have hsome : (mapGet k t.map).isSome = true :=
        mapGet_isSome_of_mem_fst (mem_keys_iff.mp hk)
      exact ⟨fun _ => ⟨hsome, Option.not_isSome_iff_eq_none.mp hc.1,
        Option.not_isSome_iff_eq_none.mp hc.2⟩, fun _ => hsome⟩
  · have hnone : mapGet k t.map = none := by
      apply mapGet_eq_none
      intro hmem
      exact hk (mem_keys_iff.mpr hmem)
    rw [branchFold_not_mem _ _ _ hk, hnone]
    simp

/-- Witness for the amended C7 at `{1 ↦ [1], 2 ↦ [2]}`, key 2: kept, with
both children absent from the result. -/
theorem claim_C7_into_branch_char_witness :
    (mapGet 2 (Oof.into_branch ⟨[(1, [1]), (2, [2])], 1⟩).map).isSome = true ↔
      ((mapGet 2 ([(1, [1]), (2, [2])] : MapL)).isSome = true ∧
        mapGet 4 (Oof.into_branch ⟨[(1, [1]), (2, [2])], 1⟩).map = none ∧
        mapGet 5 (Oof.into_branch ⟨[(1, [1]), (2, [2])], 1⟩).map = none) :=
  claim_C7_into_branch_char ⟨[(1, [1]), (2, [2])], 1⟩ 2 (by decide) (by decide)

/-- Claim C8: for every tree with unique (strictly sorted) keys in the
`u128` range, 32-byte values, and a count that fits in a `u32`, the
owning-mode encoding (`to_bytes`: count, keys ascending, values in the
same order) followed by the owning decode (`from_blob`) reproduces the
tree exactly. -/
theorem claim_C8_roundtrip (t : Oof) (hs : SortedMap t.map) (hne : t.map ≠ [])
    (hkey : ∀ kv ∈ t.map, kv.1 < 2 ^ 128) (hval : ∀ kv ∈ t.map, kv.2.length = 32)
    (hcount : t.map.length < 2 ^ 32) :
    Oof.from_blob (Oof.to_bytes t) t.height = t := by
  obtain ⟨m, hgt⟩ := t
  simp only at hs hne hkey hval hcount
  have hKC : ∀ c ∈ m.map (fun kv => bytesLE 16 kv.1), c.length = 16 := by
    intro c hc
    rcases List.mem_map.mp hc with ⟨kv, _, rfl⟩
    exact bytesLE_length 16 kv.1
  have hVC : ∀ c ∈ m.map Prod.snd, c.length = 32 := by
    intro c hc
    rcases List.mem_map.mp hc with ⟨kv, hkv, rfl⟩
    exact hval kv hkv
  have hlen4 : (bytesLE 4 m.length).length = 4 := bytesLE_length 4 m.length
  have hblob : Oof.to_bytes ⟨m, hgt⟩ =
      bytesLE 4 m.length ++
        ((m.map fun kv => bytesLE 16 kv.1).flatten ++ (m.map Prod.snd).flatten) := rfl
  have htake : (Oof.to_bytes ⟨m, hgt⟩).take 4 = bytesLE 4 m.length := by
    rw [hblob]
    conv in List.take 4 => rw [← hlen4]
    exact List.take_left _ _
  have hcount' : readLE ((Oof.to_bytes ⟨m, hgt⟩).take 4) = m.length := by
    rw [htake]
    refine readLE_bytesLE 4 m.length ?_
    have h32 : (256 : Nat) ^ 4 = 2 ^ 32 := by norm_num
    rw [h32]
    exact hcount
  have hdrop4 : (Oof.to_bytes ⟨m, hgt⟩).drop 4 =
      (m.map fun kv => bytesLE 16 kv.1).flatten ++ (m.map Prod.snd).flatten := by
    rw [hblob]
    conv in List.drop 4 => rw [← hlen4]
    exact List.drop_left _ _
  have hK : parseChunks 16 (readLE ((Oof.to_bytes ⟨m, hgt⟩).take 4))
      ((Oof.to_bytes ⟨m, hgt⟩).drop 4) = m.map fun kv => bytesLE 16 kv.1 := by
    rw [hcount', hdrop4]
    have hlm : m.length = (m.map fun kv => bytesLE 16 kv.1).length :=
      (List.length_map _ _).symm
    rw [hlm]
    exact parseChunks_flatten _ _ 16 hKC
  have hks : (parseChunks 16 (readLE ((Oof.to_bytes ⟨m, hgt⟩).take 4))
      ((Oof.to_bytes ⟨m, hgt⟩).drop 4)).map readLE = m.map Prod.fst := by
    rw [hK, List.map_map]
    refine List.map_congr_left ?_
    intro kv hkv
    show readLE (bytesLE 16 kv.1) = kv.1
    refine readLE_bytesLE 16 kv.1 ?_
    have h128 : (256 : Nat) ^ 16 = 2 ^ 128 := by norm_num
    rw [h128]
    exact hkey kv hkv
  have hKlen : ((m.map fun kv => bytesLE 16 kv.1).flatten).length = 16 * m.length := by
    rw [flatten_len _ 16 hKC, List.length_map]
  have hdropV : (Oof.to_bytes ⟨m, hgt⟩).drop
      (4 + 16 * readLE ((Oof.to_bytes ⟨m, hgt⟩).take 4)) =
      (m.map Prod.snd).flatten := by
    rw [hcount']
    have hsplit : (Oof.to_bytes ⟨m, hgt⟩).drop (4 + 16 * m.length) =
        ((Oof.to_bytes ⟨m, hgt⟩).drop 4).drop (16 * m.length) := by
      rw [List.drop_drop]
    rw [hsplit, hdrop4, ← hKlen]
    exact List.drop_left _ _
  have hvs : parseChunks 32 (readLE ((Oof.to_bytes ⟨m, hgt⟩).take 4))
      ((Oof.to_bytes ⟨m, hgt⟩).drop
        (4 + 16 * readLE ((Oof.to_bytes ⟨m, hgt⟩).take 4))) = m.map Prod.snd := by
    rw [hdropV, hcount']
    have hlm : m.length = (m.map Prod.snd).length := (List.length_map _ _).symm
    rw [hlm, ← List.append_nil (m.map Prod.snd).flatten]
    exact parseChunks_flatten _ _ 32 hVC
  show Oof.from_blob (Oof.to_bytes ⟨m, hgt⟩) hgt = ⟨m, hgt⟩
  unfold Oof.from_blob
  dsimp only
  rw [hks, hvs]
  unfold Oof.new
  rw [zip_fst_snd]
  rw [foldl_mapInsert_sorted m [] (by simpa using hs)]
  simp

/-- Witness for C8: a concrete two-entry tree round-trips. -/
theorem claim_C8_roundtrip_witness :
    Oof.from_blob (Oof.to_bytes ⟨[(1, repV 1), (5, repV 9)], 2⟩) 2 =
      ⟨[(1, repV 1), (5, repV 9)], 2⟩ :=
  claim_C8_roundtrip ⟨[(1, repV 1), (5, repV 9)], 2⟩ (by decide) (by decide)
    (by decide) (by decide) (by decide)

/-- Claim C9 counterexample: height-1 tree with the single bottom-level
leaf `{3 ↦ [3]}`.  `fill_with_default` invents the sibling 2 with the
default and derives the root; `into_branch` then removes only node 1, so
the key set of the result is `{2, 3}`, not the original leaf set `{3}`:
the default-filled internal sibling survives minimization. -/
theorem claim_C9_counterexample :
    Oof.fill_with_default (fun l => l) [0] ⟨[(3, [3])], 1⟩ =
      .ok [(1, [0, 3]), (2, [0]), (3, [3])] ∧
    (Oof.into_branch ⟨[(1, [0, 3]), (2, [0]), (3, [3])], 1⟩).map.map Prod.fst =
      [2, 3] ∧
    ([2, 3] : List Nat) ≠ [3] := by
  refine ⟨by decide, by decide, by decide⟩

/-- Claim C9 (amended): for a tree of bottom-level leaves only (all keys
in `[2^h, 2^(h+1))`), if `fill_with_default` returns normally with map
`F`, then `into_branch` of `F` still contains every original leaf with
its original value, and every entry of the result was already in `F`;
the key set need not equal the original leaf set (default-filled sibling
nodes can survive, as the counterexample shows). -/
theorem claim_C9_fill_branch (digest : List Nat → List Nat) (default : Val)
    (t : Oof) (F : MapL) (k j : Nat) (v w : Val)
    (hs : SortedMap t.map)
    (hleaf : ∀ kv ∈ t.map, 2 ^ t.height ≤ kv.1 ∧ kv.1 < 2 ^ (t.height + 1))
    (hfill : Oof.fill_with_default digest default t = .ok F)
    (hk : mapGet k t.map = some v)
    (hj : mapGet j (Oof.into_branch ⟨F, t.height⟩).map = some w) :
    mapGet k (Oof.into_branch ⟨F, t.height⟩).map = some v ∧ mapGet j F = some w := by
  have hpow : 2 ^ (t.height + 1) = 2 ^ t.height * 2 := by rw [Nat.pow_succ]
  have hBeven : 2 ^ (t.height + 1) % 2 = 0 := by
    rw [hpow]
    exact Nat.mul_mod_left _ _
  have hsF : SortedMap F :=
    fillLoop_sorted digest default t.height (initFuel t.map) t.map (Oof.keys t) 0 F
      hfill hs
  have hm : ∀ (x : Nat) (u : Val), mapGet x t.map = some u →
      1 ≤ x ∧ x < 2 ^ (t.height + 1) := by
    intro x u hx
    have hmem := mapGet_some_mem hx
    have := hleaf (x, u) hmem
    have hp1 : 1 ≤ 2 ^ t.height := Nat.one_le_two_pow
    exact ⟨by omega, this.2⟩
  have hn : ∀ i ∈ Oof.keys t, 1 ≤ i ∧ i < 2 ^ (t.height + 1) := by
    intro i hi
    rcases List.mem_map.mp (mem_keys_iff.mp hi) with ⟨kv, hkv, hfst⟩
    rcases hfst
    have := hleaf kv hkv
    have hp1 : 1 ≤ 2 ^ t.height := Nat.one_le_two_pow
    exact ⟨by omega, this.2⟩
  have hbound := fillLoop_bound digest default t.height (2 ^ (t.height + 1)) hBeven
    (initFuel t.map) t.map (Oof.keys t) 0 F hfill hm hn
  have hpres : ∀ (x : Nat) (u : Val), mapGet x t.map = some u → mapGet x F = some u :=
    fillLoop_preserves digest default t.height (initFuel t.map) t.map (Oof.keys t) 0 F
      hfill
  have hmapB : (Oof.into_branch ⟨F, t.height⟩).map = branchFold (Oof.keys ⟨F, t.height⟩) F :=
    rfl
  constructor
  · have hkF : mapGet k F = some v := hpres k v hk
    have hkb := hleaf (k, v) (mapGet_some_mem hk)
    have hlnone : mapGet (2 * k) F = none := by
      rcases hcase : mapGet (2 * k) F with _ | u
      · rfl
      · exfalso
        have := hbound (2 * k) u hcase
        omega
    have hrnone : mapGet (2 * k + 1) F = none := by
      rcases hcase : mapGet (2 * k + 1) F with _ | u
      · rfl
      · exfalso
        have := hbound (2 * k + 1) u hcase
        omega
    rw [hmapB]
    exact branchFold_keep (Oof.keys ⟨F, t.height⟩) F k v hsF hkF hlnone hrnone
  · rw [hmapB] at hj
    exact branchFold_get_some (Oof.keys ⟨F, t.height⟩) F j w hsF hj

/-- Witness for the amended C9 on leaves `{2 ↦ [2], 3 ↦ [3]}` at height 1:
fill derives the root, `into_branch` removes it, leaf 2 survives with its
value and the surviving key 3 was present in the filled map. -/
theorem claim_C9_fill_branch_witness :
    mapGet 2 (Oof.into_branch ⟨[(1, [2, 3]), (2, [2]), (3, [3])], 1⟩).map =
      some [2] ∧
    mapGet 3 ([(1, [2, 3]), (2, [2]), (3, [3])] : MapL) = some [3] :=
  claim_C9_fill_branch (fun l => l) [0] ⟨[(2, [2]), (3, [3])], 1⟩
    [(1, [2, 3]), (2, [2]), (3, [3])] 2 3 [2] [3]
    (by decide) (by decide) (by decide) (by decide) (by decide)
